import Mathlib

/-!
Verification of the weighted interval scheduling core of `app.py`.

The program sorts tasks by end time (Python's stable `sorted`), computes for
each index `i` a predecessor index `p[i]` with `bisect_right`, runs a DP with
a strict `>` comparison, and backtracks with a `while` loop to recover the
selected tasks.  The embedding below mirrors that code; the backtrack loop is
modeled with fuel (it is a genuine `while` loop in the source), with `none`
meaning the loop did not finish within the fuel.
-/

namespace App

/-- A task interval, mirroring the `Task` dataclass of `app.py`
(`id`, `name`, `start_time`, `end_time`, `profit`). -/
structure Task where
  id : Int
  name : String
  start_time : Int
  end_time : Int
  profit : Int
deriving DecidableEq

instance : Inhabited Task := ⟨⟨0, "", 0, 0, 0⟩⟩

/-- The loop of Python's `bisect.bisect_right(a, x)` between `lo` and `hi`:
`while lo < hi: mid = (lo+hi)//2; if x < a[mid]: hi = mid else: lo = mid+1`.
The loop shrinks `hi - lo` by at least one per iteration, so running it on
structural fuel at least `hi - lo` reproduces it exactly. -/
def bisectRightGo (a : List Int) (x : Int) : Nat → Nat → Nat → Nat
  | 0, lo, _ => lo
  | fuel + 1, lo, hi =>
    if lo < hi then
      if x < a.getD ((lo + hi) / 2) 0 then bisectRightGo a x fuel lo ((lo + hi) / 2)
      else bisectRightGo a x fuel ((lo + hi) / 2 + 1) hi
    else lo

/-- Python's `bisect.bisect_right(a, x)`. -/
def bisect_right (a : List Int) (x : Int) : Nat :=
  bisectRightGo a x a.length 0 a.length

/-- The Boolean key comparison used by the sort: `key=lambda t: t.end_time`. -/
def endLe (a b : Task) : Bool := a.end_time ≤ b.end_time

/-- `sorted(tasks, key=lambda t: t.end_time)` — a stable sort by end time. -/
def sortByEnd (tasks : List Task) : List Task := tasks.mergeSort endLe

/-- `p[i]` for each `i`: `bisect_right(end_times, tasks_sorted[i].start_time) - 1`
(as an integer, so that the "no predecessor" value is `-1`). -/
def computeP (tasks_sorted : List Task) : List Int :=
  tasks_sorted.map
    (fun t => (bisect_right (tasks_sorted.map Task.end_time) t.start_time : Int) - 1)

/-- `include_profit` at index `i`:
`tasks_sorted[i].profit + (dp[p[i]] if p[i] >= 0 else 0)`.
Reads outside the current length of `dp` return `0`, matching the
zero-initialized `dp = [0] * n` of the source. -/
def includeProfit (ts : List Task) (p dp : List Int) (i : Nat) : Int :=
  (ts.getD i default).profit + (if 0 ≤ p.getD i 0 then dp.getD (p.getD i 0).toNat 0 else 0)

/-- `exclude_profit` at index `i`: `dp[i - 1] if i > 0 else 0`. -/
def excludeProfit (dp : List Int) (i : Nat) : Int :=
  if 0 < i then dp.getD (i - 1) 0 else 0

/-- One iteration of the DP loop.  The accumulator carries the cells of
`dp` and `choose` assigned so far (cells not yet assigned hold their
initial values `0` and `False`, which is what a default read returns). -/
def dpStep (ts : List Task) (p : List Int) (acc : List Int × List Bool) (i : Nat) :
    List Int × List Bool :=
  if excludeProfit acc.1 i < includeProfit ts p acc.1 i then
    (acc.1 ++ [includeProfit ts p acc.1 i], acc.2 ++ [true])
  else
    (acc.1 ++ [excludeProfit acc.1 i], acc.2 ++ [false])

/-- The DP loop `for i in range(n)` building `dp` and `choose`. -/
def dpChoose (ts : List Task) (p : List Int) : List Int × List Bool :=
  (List.range ts.length).foldl (dpStep ts p) ([], [])

/-- The backtrack `while i >= 0` loop, with fuel.  `acc` is `selected` so far;
`none` means the fuel ran out before the loop reached `i < 0`. -/
def backtrackGo (ts : List Task) (p dp : List Int) :
    Nat → Int → List Task → Option (List Task)
  | 0, i, acc => if i < 0 then some acc else none
  | fuel + 1, i, acc =>
    if i < 0 then some acc
    else if excludeProfit dp i.toNat < includeProfit ts p dp i.toNat then
      backtrackGo ts p dp fuel (p.getD i.toNat 0) (acc ++ [ts.getD i.toNat default])
    else
      backtrackGo ts p dp fuel (i - 1) acc

/-- `weighted_interval_scheduling(tasks)` from `app.py`.  Returns
`(selected, total_profit)`; `none` models the backtrack loop failing to
terminate within `n` iterations (which cannot happen on valid input, as
proved below, but can on tasks with `end_time <= start_time`). -/
def weighted_interval_scheduling (tasks : List Task) : Option (List Task × Int) :=
  if tasks.isEmpty then some ([], 0)
  else
    match backtrackGo (sortByEnd tasks) (computeP (sortByEnd tasks))
        (dpChoose (sortByEnd tasks) (computeP (sortByEnd tasks))).1
        (sortByEnd tasks).length (((sortByEnd tasks).length : Int) - 1) [] with
    | some sel => some (sel.reverse,
        (dpChoose (sortByEnd tasks) (computeP (sortByEnd tasks))).1.getD
          ((sortByEnd tasks).length - 1) 0)
    | none => none

/-- Validity invariant assumed by the claims: every task satisfies
`end_time > start_time`. -/
def ValidTasks (tasks : List Task) : Prop :=
  ∀ t ∈ tasks, t.start_time < t.end_time

instance : DecidablePred ValidTasks := fun tasks =>
  inferInstanceAs (Decidable (∀ t ∈ tasks, t.start_time < t.end_time))

/-- The conflict-free relation of the spec: tasks `a` and `b` do not conflict
when `a.end_time <= b.start_time` or `b.end_time <= a.start_time`. -/
def Compat (a b : Task) : Prop :=
  a.end_time ≤ b.start_time ∨ b.end_time ≤ a.start_time

instance : DecidableRel Compat := fun a b =>
  inferInstanceAs (Decidable (a.end_time ≤ b.start_time ∨ b.end_time ≤ a.start_time))

/-- A list of tasks is pairwise non-conflicting. -/
def PairwiseCompat (l : List Task) : Prop := l.Pairwise Compat

instance : DecidablePred PairwiseCompat := fun l =>
  inferInstanceAs (Decidable (l.Pairwise Compat))

/-- Sum of the profit fields of a list of tasks. -/
def profitSum (l : List Task) : Int := (l.map Task.profit).sum

/-- Modelled from the spec (the brute-force oracle of spec section 8): the
maximum, over all sub-multisets of the input that are pairwise
non-conflicting, of the sum of profits.  The empty subset always qualifies,
so the fold starts from `0`. -/
def bestProfit (tasks : List Task) : Int :=
  ((tasks.sublists.filter (fun l => decide (PairwiseCompat l))).map profitSum).foldr max 0

/-! ### Correctness of the binary search -/

theorem bisectRightGo_spec (a : List Int) (x : Int)
    (Hs : ∀ j k : Nat, j ≤ k → k < a.length → a.getD j 0 ≤ a.getD k 0) :
    ∀ (fuel lo hi : Nat), hi - lo ≤ fuel → lo ≤ hi → hi ≤ a.length →
    (∀ k, k < lo → a.getD k 0 ≤ x) →
    (∀ k, hi ≤ k → k < a.length → x < a.getD k 0) →
    lo ≤ bisectRightGo a x fuel lo hi ∧ bisectRightGo a x fuel lo hi ≤ hi ∧
    (∀ k, k < bisectRightGo a x fuel lo hi → a.getD k 0 ≤ x) ∧
    (∀ k, bisectRightGo a x fuel lo hi ≤ k → k < a.length → x < a.getD k 0) := by
  intro fuel
  induction fuel with
  | zero =>
    intro lo hi hfuel hlh hha hlo hhi
    have : lo = hi := by omega
    subst this
    simp only [bisectRightGo]
    exact ⟨le_refl _, le_refl _, hlo, hhi⟩
  | succ f ih =>
    intro lo hi hfuel hlh hha hlo hhi
    simp only [bisectRightGo]
    by_cases h : lo < hi
    · rw [if_pos h]
      have hmidlt : (lo + hi) / 2 < hi := by omega
      have hmidge : lo ≤ (lo + hi) / 2 := by omega
      by_cases hx : x < a.getD ((lo + hi) / 2) 0
      · rw [if_pos hx]
        have := ih lo ((lo + hi) / 2) (by omega) (by omega) (by omega) hlo
          (fun k hk hk2 => lt_of_lt_of_le hx (Hs _ k hk hk2))
        exact ⟨this.1, le_trans this.2.1 (le_of_lt hmidlt), this.2.2⟩
      · rw [if_neg hx]
        push_neg at hx
        have := ih ((lo + hi) / 2 + 1) hi (by omega) (by omega) hha
          (fun k hk => le_trans (Hs k ((lo + hi) / 2) (by omega) (by omega)) hx) hhi
        exact ⟨le_trans (by omega) this.1, this.2⟩
    · rw [if_neg h]
      have : lo = hi := by omega
      subst this
      exact ⟨le_refl _, le_refl _, hlo, hhi⟩

theorem bisect_right_spec (a : List Int) (x : Int)
    (Hs : ∀ j k : Nat, j ≤ k → k < a.length → a.getD j 0 ≤ a.getD k 0) :
    bisect_right a x ≤ a.length ∧
    (∀ k, k < bisect_right a x → a.getD k 0 ≤ x) ∧
    (∀ k, bisect_right a x ≤ k → k < a.length → x < a.getD k 0) := by
  have := bisectRightGo_spec a x Hs a.length 0 a.length (by omega) (by omega) (le_refl _)
    (fun k hk => absurd hk (Nat.not_lt_zero k)) (fun k hk hk2 => absurd hk2 (by omega))
  exact ⟨this.2.1, this.2.2⟩

/-! ### The sort -/

theorem sortByEnd_perm (tasks : List Task) : (sortByEnd tasks).Perm tasks :=
  List.mergeSort_perm tasks endLe

theorem sortByEnd_sorted (tasks : List Task) :
    (sortByEnd tasks).Pairwise (fun a b => a.end_time ≤ b.end_time) := by
  have h := @List.sorted_mergeSort Task endLe
    (fun a b c hab hbc => by
      simp only [endLe, decide_eq_true_eq] at hab hbc ⊢; omega)
    (fun a b => by
      simp only [endLe, Bool.or_eq_true, decide_eq_true_eq]; omega)
    tasks
  exact h.imp (fun hab => by simpa [endLe] using hab)

/-! ### Access helpers -/

theorem getD_mem {u : List Task} {i : Nat} (h : i < u.length) : u.getD i default ∈ u := by
  rw [List.getD_eq_getElem u default h]
  exact List.getElem_mem h

theorem getD_map_end (u : List Task) (i : Nat) (h : i < u.length) :
    (u.map Task.end_time).getD i 0 = (u.getD i default).end_time := by
  rw [List.getD_eq_getElem _ _ (by simpa using h), List.getElem_map,
    List.getD_eq_getElem u default h]

theorem ends_sorted_getD (u : List Task)
    (HS : u.Pairwise (fun a b => a.end_time ≤ b.end_time)) :
    ∀ j k : Nat, j ≤ k → k < (u.map Task.end_time).length →
      (u.map Task.end_time).getD j 0 ≤ (u.map Task.end_time).getD k 0 := by
  intro j k hjk hk
  rw [List.length_map] at hk
  rcases Nat.lt_or_ge j k with h | h
  · rw [getD_map_end u j (lt_trans h hk), getD_map_end u k hk]
    have := List.pairwise_iff_getElem.mp HS j k (lt_trans h hk) hk h
    rw [List.getD_eq_getElem u default (lt_trans h hk), List.getD_eq_getElem u default hk]
    exact this
  · have : j = k := by omega
    subst this
    exact le_refl _

/-! ### Characterization of the predecessor indices `p` -/

theorem computeP_length (u : List Task) : (computeP u).length = u.length := by
  simp [computeP]

theorem computeP_getD (u : List Task) (i : Nat) (h : i < u.length) :
    (computeP u).getD i 0 =
      (bisect_right (u.map Task.end_time) (u.getD i default).start_time : Int) - 1 := by
  rw [computeP, List.getD_eq_getElem _ _ (by simpa using h), List.getElem_map,
    List.getD_eq_getElem u default h]

/-- The predecessor index `p[i]` is in `[-1, i)` and is exactly the largest
index whose end time does not exceed `tasks_sorted[i].start_time`. -/
theorem p_char (u : List Task)
    (HS : u.Pairwise (fun a b => a.end_time ≤ b.end_time))
    (HV : ∀ t ∈ u, t.start_time < t.end_time)
    (i : Nat) (hi : i < u.length) :
    -1 ≤ (computeP u).getD i 0 ∧ (computeP u).getD i 0 < (i : Int) ∧
    (∀ j : Nat, j < u.length →
      ((j : Int) ≤ (computeP u).getD i 0 ↔
        (u.getD j default).end_time ≤ (u.getD i default).start_time)) := by
  have hE : (u.map Task.end_time).length = u.length := by simp
  obtain ⟨hr1, hr2, hr3⟩ :=
    bisect_right_spec (u.map Task.end_time) (u.getD i default).start_time
      (ends_sorted_getD u HS)
  rw [computeP_getD u i hi]
  have hvi : (u.getD i default).start_time < (u.getD i default).end_time :=
    HV _ (getD_mem hi)
  have hri : bisect_right (u.map Task.end_time) (u.getD i default).start_time ≤ i := by
    by_contra hlt
    push_neg at hlt
    have := hr2 i hlt
    rw [getD_map_end u i hi] at this
    omega
  refine ⟨by omega, by omega, fun j hj => ?_⟩
  constructor
  · intro hle
    have hjr : j < bisect_right (u.map Task.end_time) (u.getD i default).start_time := by omega
    have := hr2 j hjr
    rwa [getD_map_end u j hj] at this
  · intro hend
    by_contra hgt
    push_neg at hgt
    have hjr : bisect_right (u.map Task.end_time) (u.getD i default).start_time ≤ j := by omega
    have := hr3 j hjr (by omega)
    rw [getD_map_end u j hj] at this
    omega

/-! ### The DP fold -/

theorem dpPartial_succ (ts : List Task) (p : List Int) (k : Nat) :
    (List.range (k + 1)).foldl (dpStep ts p) ([], []) =
      dpStep ts p ((List.range k).foldl (dpStep ts p) ([], [])) k := by
  rw [List.range_succ, List.foldl_concat]

theorem dpPartial_length (ts : List Task) (p : List Int) :
    ∀ k, ((List.range k).foldl (dpStep ts p) ([], [])).1.length = k ∧
      ((List.range k).foldl (dpStep ts p) ([], [])).2.length = k := by
  have hstep : ∀ (acc : List Int × List Bool) (k : Nat),
      (dpStep ts p acc k).1.length = acc.1.length + 1 ∧
      (dpStep ts p acc k).2.length = acc.2.length + 1 := by
    intro acc k
    unfold dpStep
    split
    · simp
    · simp
  intro k
  induction k with
  | zero => simp
  | succ k ih =>
    rw [dpPartial_succ]
    rw [(hstep _ _).1, (hstep _ _).2, ih.1, ih.2]
    exact ⟨rfl, rfl⟩

theorem dpChoose_fst_length (ts : List Task) (p : List Int) :
    (dpChoose ts p).1.length = ts.length :=
  (dpPartial_length ts p ts.length).1

theorem dpPartial_stable (ts : List Task) (p : List Int) :
    ∀ m k, k ≤ m → ∀ j, j < k →
      (((List.range m).foldl (dpStep ts p) ([], [])).1.getD j 0 =
        ((List.range k).foldl (dpStep ts p) ([], [])).1.getD j 0) ∧
      (((List.range m).foldl (dpStep ts p) ([], [])).2.getD j false =
        ((List.range k).foldl (dpStep ts p) ([], [])).2.getD j false) := by
  have hstep : ∀ (acc : List Int × List Bool) (k : Nat), ∃ w1 w2,
      dpStep ts p acc k = (acc.1 ++ [w1], acc.2 ++ [w2]) := by
    intro acc k
    unfold dpStep
    split
    · exact ⟨_, _, rfl⟩
    · exact ⟨_, _, rfl⟩
  intro m
  induction m with
  | zero =>
    intro k hk j hj
    omega
  | succ m ih =>
    intro k hk j hj
    rcases Nat.lt_or_ge k (m + 1) with h | h
    · have hkm : k ≤ m := by omega
      have hlen := dpPartial_length ts p m
      rw [dpPartial_succ]
      obtain ⟨w1, w2, hw⟩ := hstep ((List.range m).foldl (dpStep ts p) ([], [])) m
      rw [hw]
      constructor
      · rw [List.getD_append _ _ _ j (by omega)]
        exact (ih k hkm j hj).1
      · rw [List.getD_append _ _ _ j (by omega)]
        exact (ih k hkm j hj).2
    · have : k = m + 1 := by omega
      subst this
      exact ⟨rfl, rfl⟩

theorem getD_concat_self {α : Type} (l : List α) (w d : α) (k : Nat) (h : l.length = k) :
    (l ++ [w]).getD k d = w := by
  subst h
  rw [List.getD_eq_getElem _ _ (by simp)]
  exact List.getElem_concat_length l w l.length rfl _

/-- One step of the DP appends `max(include, exclude)` to `dp` and the Boolean
of the strict comparison to `choose`. -/
theorem dpStep_getD (ts : List Task) (p : List Int) (acc : List Int × List Bool) (k : Nat)
    (h1 : acc.1.length = k) (h2 : acc.2.length = k) :
    (dpStep ts p acc k).1.getD k 0 =
      max (includeProfit ts p acc.1 k) (excludeProfit acc.1 k) ∧
    (dpStep ts p acc k).2.getD k false =
      decide (excludeProfit acc.1 k < includeProfit ts p acc.1 k) := by
  unfold dpStep
  by_cases hc : excludeProfit acc.1 k < includeProfit ts p acc.1 k
  · rw [if_pos hc]
    refine ⟨?_, ?_⟩
    · rw [getD_concat_self acc.1 _ _ k h1]
      exact (max_eq_left (le_of_lt hc)).symm
    · rw [getD_concat_self acc.2 _ _ k h2]
      simp [hc]
  · rw [if_neg hc]
    push_neg at hc
    refine ⟨?_, ?_⟩
    · rw [getD_concat_self acc.1 _ _ k h1]
      exact (max_eq_right hc).symm
    · rw [getD_concat_self acc.2 _ _ k h2]
      simp
      omega

/-- The DP recurrence of the source, read off the final `dp` list:
`dp[i] = max(include_profit, exclude_profit)` and
`choose[i] = (include_profit > exclude_profit)`, for valid sorted input. -/
theorem dp_recurrence (u : List Task)
    (HS : u.Pairwise (fun a b => a.end_time ≤ b.end_time))
    (HV : ∀ t ∈ u, t.start_time < t.end_time)
    (i : Nat) (hi : i < u.length) :
    (dpChoose u (computeP u)).1.getD i 0 =
      max (includeProfit u (computeP u) (dpChoose u (computeP u)).1 i)
        (excludeProfit (dpChoose u (computeP u)).1 i) ∧
    (dpChoose u (computeP u)).2.getD i false =
      decide (excludeProfit (dpChoose u (computeP u)).1 i <
        includeProfit u (computeP u) (dpChoose u (computeP u)).1 i) := by
  obtain ⟨hpge, hplt, _⟩ := p_char u HS HV i hi
  have hlen := dpPartial_length u (computeP u) i
  unfold dpChoose
  -- The reads made at step `i` agree between the partial and the final lists.
  have hinc : includeProfit u (computeP u)
      ((List.range i).foldl (dpStep u (computeP u)) ([], [])).1 i =
      includeProfit u (computeP u)
        ((List.range u.length).foldl (dpStep u (computeP u)) ([], [])).1 i := by
    unfold includeProfit
    by_cases hp : 0 ≤ (computeP u).getD i 0
    · rw [if_pos hp, if_pos hp]
      have htn : ((computeP u).getD i 0).toNat < i := by omega
      rw [(dpPartial_stable u (computeP u) u.length i (by omega) _ htn).1]
    · rw [if_neg hp, if_neg hp]
  have hexc : excludeProfit ((List.range i).foldl (dpStep u (computeP u)) ([], [])).1 i =
      excludeProfit ((List.range u.length).foldl (dpStep u (computeP u)) ([], [])).1 i := by
    unfold excludeProfit
    by_cases hp : 0 < i
    · rw [if_pos hp, if_pos hp]
      rw [(dpPartial_stable u (computeP u) u.length i (by omega) _ (by omega)).1]
    · rw [if_neg hp, if_neg hp]
  have hD := (dpPartial_stable u (computeP u) u.length (i + 1) (by omega) i (by omega)).1
  have hC := (dpPartial_stable u (computeP u) u.length (i + 1) (by omega) i (by omega)).2
  have hstep := dpStep_getD u (computeP u)
    ((List.range i).foldl (dpStep u (computeP u)) ([], [])) i hlen.1 hlen.2
  rw [← dpPartial_succ] at hstep
  constructor
  · rw [hD, hstep.1, hinc, hexc]
  · rw [hC, hstep.2, hinc, hexc]

/-! ### The brute-force optimum -/

theorem le_foldr_max {l : List Int} {z a : Int} (h : a ∈ l) : a ≤ l.foldr max z := by
  induction l with
  | nil => cases h
  | cons b l ih =>
    rcases List.mem_cons.mp h with h | h
    · subst h
      exact le_max_left _ _
    · exact le_trans (ih h) (le_max_right _ _)

theorem init_le_foldr_max (l : List Int) (z : Int) : z ≤ l.foldr max z := by
  induction l with
  | nil => exact le_refl _
  | cons b l ih => exact le_trans ih (le_max_right _ _)

theorem foldr_max_mem (l : List Int) (z : Int) : l.foldr max z = z ∨ l.foldr max z ∈ l := by
  induction l with
  | nil => exact Or.inl rfl
  | cons b l ih =>
    rcases max_choice b (l.foldr max z) with h | h
    · exact Or.inr (by rw [List.foldr_cons, h]; exact List.mem_cons_self b l)
    · rcases ih with h2 | h2
      · exact Or.inl (by rw [List.foldr_cons, h, h2])
      · exact Or.inr (by rw [List.foldr_cons, h]; exact List.mem_cons_of_mem b h2)

theorem profitSum_nil : profitSum [] = 0 := rfl

theorem profitSum_concat (l : List Task) (t : Task) :
    profitSum (l ++ [t]) = profitSum l + t.profit := by
  simp [profitSum]

theorem profitSum_cons (t : Task) (l : List Task) :
    profitSum (t :: l) = t.profit + profitSum l := by
  simp [profitSum]

theorem profitSum_reverse (l : List Task) : profitSum l.reverse = profitSum l := by
  simp [profitSum, ← List.sum_reverse (l.map Task.profit)]

/-- Every pairwise non-conflicting sub-multiset is counted by `bestProfit`. -/
theorem le_bestProfit (ts l : List Task) (hl : l.Sublist ts) (hc : PairwiseCompat l) :
    profitSum l ≤ bestProfit ts := by
  apply le_foldr_max
  exact List.mem_map_of_mem profitSum
    (List.mem_filter.mpr ⟨List.mem_sublists.mpr hl, by simpa using hc⟩)

/-- `bestProfit` is attained by some pairwise non-conflicting sublist. -/
theorem bestProfit_attained (ts : List Task) :
    ∃ l, l.Sublist ts ∧ PairwiseCompat l ∧ profitSum l = bestProfit ts := by
  rcases foldr_max_mem
      ((ts.sublists.filter (fun l => decide (PairwiseCompat l))).map profitSum) 0 with h | h
  · exact ⟨[], List.nil_sublist ts, List.Pairwise.nil, h.symm⟩
  · obtain ⟨l, hl, hsum⟩ := List.mem_map.mp h
    have := List.mem_filter.mp hl
    exact ⟨l, List.mem_sublists.mp this.1, by simpa using this.2, hsum⟩

theorem bestProfit_nonneg (ts : List Task) : 0 ≤ bestProfit ts :=
  init_le_foldr_max _ 0

theorem bestProfit_nil : bestProfit [] = 0 := rfl

/-- `Compat` is symmetric. -/
theorem compat_symm {a b : Task} (h : Compat a b) : Compat b a := h.symm

/-- `bestProfit` only depends on the input as a multiset. -/
theorem bestProfit_perm {ts ts' : List Task} (h : ts.Perm ts') :
    bestProfit ts = bestProfit ts' := by
  have key : ∀ {xs ys : List Task}, xs.Perm ys → bestProfit xs ≤ bestProfit ys := by
    intro xs ys hxy
    obtain ⟨l, hl, hc, hsum⟩ := bestProfit_attained xs
    obtain ⟨l2, hl2p, hl2s⟩ := (hl.subperm.trans hxy.subperm)
    have hc2 : PairwiseCompat l2 :=
      (hl2p.pairwise_iff (fun h => compat_symm h)).mpr hc
    have hsum2 : profitSum l2 = profitSum l := (hl2p.map Task.profit).sum_eq
    calc bestProfit xs = profitSum l2 := by rw [hsum2, hsum]
      _ ≤ bestProfit ys := le_bestProfit ys l2 hl2s hc2
  exact le_antisymm (key h) (key h.symm)

/-- Monotonicity of `bestProfit` in the sublist order. -/
theorem bestProfit_sublist_mono {ts ts' : List Task} (h : ts.Sublist ts') :
    bestProfit ts ≤ bestProfit ts' := by
  obtain ⟨l, hl, hc, hsum⟩ := bestProfit_attained ts
  rw [← hsum]
  exact le_bestProfit ts' l (hl.trans h) hc

/-! ### Prefix helpers -/

theorem sorted_getD (u : List Task)
    (HS : u.Pairwise (fun a b => a.end_time ≤ b.end_time))
    {j k : Nat} (hjk : j < k) (hk : k < u.length) :
    (u.getD j default).end_time ≤ (u.getD k default).end_time := by
  have := List.pairwise_iff_getElem.mp HS j k (lt_trans hjk hk) hk hjk
  rwa [List.getD_eq_getElem u default (lt_trans hjk hk), List.getD_eq_getElem u default hk]

theorem mem_take_iff {u : List Task} {m : Nat} {a : Task} :
    a ∈ u.take m ↔ ∃ j, j < m ∧ j < u.length ∧ u.getD j default = a := by
  constructor
  · intro h
    obtain ⟨j, hj, hje⟩ := List.mem_iff_getElem.mp h
    rw [List.length_take] at hj
    have hjn : j < u.length := by omega
    refine ⟨j, by omega, hjn, ?_⟩
    rw [List.getD_eq_getElem u default hjn]
    rwa [List.getElem_take] at hje
  · rintro ⟨j, hjm, hjn, rfl⟩
    rw [List.getD_eq_getElem u default hjn]
    refine List.mem_iff_getElem.mpr ⟨j, by rw [List.length_take]; omega, ?_⟩
    rw [List.getElem_take]

theorem take_succ_getD {u : List Task} {i : Nat} (h : i < u.length) :
    u.take (i + 1) = u.take i ++ [u.getD i default] := by
  rw [List.take_succ, List.getElem?_eq_getElem h, List.getD_eq_getElem u default h]
  rfl

theorem take_sublist_take {u : List Task} {m k : Nat} (h : m ≤ k) :
    (u.take m).Sublist (u.take k) := by
  have := List.take_sublist m (u.take k)
  rwa [List.take_take, min_eq_left h] at this

theorem mem_drop_take {u : List Task} {m i : Nat} {x : Task} (h : x ∈ (u.take i).drop m) :
    ∃ j, m ≤ j ∧ j < i ∧ j < u.length ∧ u.getD j default = x := by
  obtain ⟨j, hj, hje⟩ := List.mem_iff_getElem.mp h
  rw [List.length_drop, List.length_take] at hj
  have h2 : m + j < u.length := by omega
  refine ⟨m + j, by omega, by omega, h2, ?_⟩
  rw [List.getD_eq_getElem u default h2]
  rw [List.getElem_drop] at hje
  rwa [List.getElem_take] at hje

theorem sublist_of_append_disjoint {P : Task → Prop} {l a b : List Task}
    (h : l.Sublist (a ++ b)) (hl : ∀ x ∈ l, P x) (hb : ∀ x ∈ b, ¬ P x) :
    l.Sublist a := by
  obtain ⟨l₁, l₂, rfl, h1, h2⟩ := List.sublist_append_iff.mp h
  cases l₂ with
  | nil => simpa using h1
  | cons y l₂ =>
    exact absurd (hl y (List.mem_append_right l₁ (List.mem_cons_self y l₂)))
      (hb y (h2.subset (List.mem_cons_self y l₂)))

/-! ### Optimality of the DP table -/

/-- `dp[i]` equals the brute-force optimum over the first `i+1` tasks in
end-time order. -/
theorem dp_eq_bestProfit (u : List Task)
    (HS : u.Pairwise (fun a b => a.end_time ≤ b.end_time))
    (HV : ∀ t ∈ u, t.start_time < t.end_time) :
    ∀ i, i < u.length →
      (dpChoose u (computeP u)).1.getD i 0 = bestProfit (u.take (i + 1)) := by
  intro i
  induction i using Nat.strong_induction_on with
  | _ i IH =>
    intro hi
    obtain ⟨hpge, hplt, hpiff⟩ := p_char u HS HV i hi
    have hrec := (dp_recurrence u HS HV i hi).1
    set m := ((computeP u).getD i 0 + 1).toNat with hm
    have hmle : m ≤ i := by omega
    have hmchar : ∀ j : Nat, j < u.length →
        (j < m ↔ (u.getD j default).end_time ≤ (u.getD i default).start_time) := by
      intro j hj
      rw [← hpiff j hj]
      omega
    have hinc : includeProfit u (computeP u) ((dpChoose u (computeP u)).1) i =
        (u.getD i default).profit + bestProfit (u.take m) := by
      unfold includeProfit
      by_cases hp : 0 ≤ (computeP u).getD i 0
      · rw [if_pos hp]
        have h1 : ((computeP u).getD i 0).toNat < i := by omega
        rw [IH ((computeP u).getD i 0).toNat h1 (by omega)]
        have h2 : ((computeP u).getD i 0).toNat + 1 = m := by omega
        rw [h2]
      · rw [if_neg hp]
        have h0 : m = 0 := by omega
        rw [h0, List.take_zero, bestProfit_nil]
    have hexc : excludeProfit ((dpChoose u (computeP u)).1) i = bestProfit (u.take i) := by
      unfold excludeProfit
      by_cases hp : 0 < i
      · rw [if_pos hp]
        rw [IH (i - 1) (by omega) (by omega)]
        have h1 : i - 1 + 1 = i := by omega
        rw [h1]
      · rw [if_neg hp]
        have h0 : i = 0 := by omega
        rw [h0, List.take_zero, bestProfit_nil]
    rw [hrec, hinc, hexc]
    apply le_antisymm
    · apply max_le
      · obtain ⟨l, hl, hc, hsum⟩ := bestProfit_attained (u.take m)
        have hlc : (l ++ [u.getD i default]).Sublist (u.take (i + 1)) := by
          rw [take_succ_getD hi]
          exact (hl.trans (take_sublist_take hmle)).append (List.Sublist.refl _)
        have hcc : PairwiseCompat (l ++ [u.getD i default]) := by
          apply List.pairwise_append.mpr
          refine ⟨hc, by simp [PairwiseCompat], ?_⟩
          intro a ha b hb
          rw [List.mem_singleton] at hb
          subst hb
          obtain ⟨j, hjm, hjn, rfl⟩ := mem_take_iff.mp (hl.subset ha)
          exact Or.inl ((hmchar j hjn).mp hjm)
        have hle := le_bestProfit (u.take (i + 1)) _ hlc hcc
        rw [profitSum_concat, hsum] at hle
        omega
      · exact bestProfit_sublist_mono (take_sublist_take (by omega))
    · obtain ⟨l, hl, hc, hsum⟩ := bestProfit_attained (u.take (i + 1))
      rw [← hsum]
      rw [take_succ_getD hi] at hl
      obtain ⟨l₁, l₂, rfl, h1, h2⟩ := List.sublist_append_iff.mp hl
      rcases List.sublist_singleton.mp h2 with h2e | h2e
      · subst h2e
        simp only [List.append_nil] at hc ⊢
        have hle := le_bestProfit (u.take i) l₁ h1 hc
        have hmax := le_max_right
          ((u.getD i default).profit + bestProfit (u.take m)) (bestProfit (u.take i))
        omega
      · subst h2e
        have hcsplit := List.pairwise_append.mp hc
        have hP : ∀ a ∈ l₁, a.end_time ≤ (u.getD i default).start_time := by
          intro a ha
          obtain ⟨j, hji, hjn, rfl⟩ := mem_take_iff.mp (h1.subset ha)
          rcases hcsplit.2.2 _ ha (u.getD i default) (by simp) with h | h
          · exact h
          · have hsj := HV _ (getD_mem hjn)
            have hej := sorted_getD u HS hji hi
            omega
        have hsub : l₁.Sublist (u.take m) := by
          have hdecomp : u.take i = u.take m ++ (u.take i).drop m := by
            conv_lhs => rw [← List.take_append_drop m (u.take i)]
            rw [List.take_take, min_eq_left hmle]
          refine sublist_of_append_disjoint (hdecomp ▸ h1) hP ?_
          intro x hx hPx
          obtain ⟨j, hjm, hji, hjn, rfl⟩ := mem_drop_take hx
          have := (hmchar j hjn).mpr hPx
          omega
        have hle := le_bestProfit (u.take m) l₁ hsub hcsplit.1
        rw [profitSum_concat]
        have hmax := le_max_left
          ((u.getD i default).profit + bestProfit (u.take m)) (bestProfit (u.take i))
        omega

theorem dp_nonneg (u : List Task)
    (HS : u.Pairwise (fun a b => a.end_time ≤ b.end_time))
    (HV : ∀ t ∈ u, t.start_time < t.end_time)
    (i : Nat) (hi : i < u.length) : 0 ≤ (dpChoose u (computeP u)).1.getD i 0 := by
  rw [dp_eq_bestProfit u HS HV i hi]
  exact bestProfit_nonneg _

theorem dp_mono (u : List Task)
    (HS : u.Pairwise (fun a b => a.end_time ≤ b.end_time))
    (HV : ∀ t ∈ u, t.start_time < t.end_time)
    (i j : Nat) (hij : i ≤ j) (hj : j < u.length) :
    (dpChoose u (computeP u)).1.getD i 0 ≤ (dpChoose u (computeP u)).1.getD j 0 := by
  rw [dp_eq_bestProfit u HS HV i (by omega), dp_eq_bestProfit u HS HV j hj]
  exact bestProfit_sublist_mono (take_sublist_take (by omega))

/-! ### The backtrack loop -/

/-- Complete description of a terminating backtrack run started at index `i`:
it finishes within any fuel exceeding `i`, appends a pairwise non-conflicting
subsequence of the sorted prefix `0..i` whose profits sum to `dp[i]`, and
appends a task only at an index where the include profit strictly beats the
exclude profit. -/
theorem backtrack_run (u : List Task)
    (HS : u.Pairwise (fun a b => a.end_time ≤ b.end_time))
    (HV : ∀ t ∈ u, t.start_time < t.end_time) :
    ∀ i : Int, -1 ≤ i → i < (u.length : Int) →
    ∃ picks : List Task,
      (∀ (fuel : Nat) (acc : List Task), i < (fuel : Int) →
        backtrackGo u (computeP u) (dpChoose u (computeP u)).1 fuel i acc =
          some (acc ++ picks)) ∧
      picks.reverse.Sublist (u.take (i + 1).toNat) ∧
      PairwiseCompat picks.reverse ∧
      profitSum picks = (if 0 ≤ i then (dpChoose u (computeP u)).1.getD i.toNat 0 else 0) ∧
      (∀ t ∈ picks, ∃ j : Nat, j < u.length ∧ u.getD j default = t ∧
        excludeProfit (dpChoose u (computeP u)).1 j <
          includeProfit u (computeP u) (dpChoose u (computeP u)).1 j) := by
  have main : ∀ k : Nat, ∀ i : Int, (i + 1).toNat = k → -1 ≤ i → i < (u.length : Int) →
      ∃ picks : List Task,
      (∀ (fuel : Nat) (acc : List Task), i < (fuel : Int) →
        backtrackGo u (computeP u) (dpChoose u (computeP u)).1 fuel i acc =
          some (acc ++ picks)) ∧
      picks.reverse.Sublist (u.take (i + 1).toNat) ∧
      PairwiseCompat picks.reverse ∧
      profitSum picks = (if 0 ≤ i then (dpChoose u (computeP u)).1.getD i.toNat 0 else 0) ∧
      (∀ t ∈ picks, ∃ j : Nat, j < u.length ∧ u.getD j default = t ∧
        excludeProfit (dpChoose u (computeP u)).1 j <
          includeProfit u (computeP u) (dpChoose u (computeP u)).1 j) := by
    intro k
    induction k using Nat.strong_induction_on with
    | _ k IH =>
      intro i hk hge hlt
      by_cases hneg : i < 0
      · refine ⟨[], ?_, by simp, by simp [PairwiseCompat], ?_, by simp⟩
        · intro fuel acc hfuel
          cases fuel with
          | zero => simp [backtrackGo, if_pos hneg]
          | succ f => simp [backtrackGo, if_pos hneg]
        · rw [if_neg (by omega)]
          rfl
      · push_neg at hneg
        have hiN : i.toNat < u.length := by omega
        have hrec := (dp_recurrence u HS HV i.toNat hiN).1
        obtain ⟨hpge, hplt, hpiff⟩ := p_char u HS HV i.toNat hiN
        by_cases hbr : excludeProfit (dpChoose u (computeP u)).1 i.toNat <
            includeProfit u (computeP u) (dpChoose u (computeP u)).1 i.toNat
        · -- include wins: select the task at `i` and jump to `p[i]`
          obtain ⟨picks', hrun', hsub', hcomp', hsum', hsel'⟩ :=
            IH ((computeP u).getD i.toNat 0 + 1).toNat (by omega)
              ((computeP u).getD i.toNat 0) rfl (by omega) (by omega)
          refine ⟨u.getD i.toNat default :: picks', ?_, ?_, ?_, ?_, ?_⟩
          · intro fuel acc hfuel
            cases fuel with
            | zero => omega
            | succ f =>
              simp only [backtrackGo]
              rw [if_neg (by omega), if_pos hbr,
                hrun' f (acc ++ [u.getD i.toNat default]) (by omega), List.append_assoc]
              rfl
          · rw [List.reverse_cons]
            have h1 : (i + 1).toNat = i.toNat + 1 := by omega
            rw [h1, take_succ_getD hiN]
            exact (hsub'.trans (take_sublist_take (by omega))).append (List.Sublist.refl _)
          · rw [List.reverse_cons]
            apply List.pairwise_append.mpr
            refine ⟨hcomp', by simp [PairwiseCompat], ?_⟩
            intro a ha b hb
            rw [List.mem_singleton] at hb
            subst hb
            obtain ⟨j, hjm, hjn, rfl⟩ := mem_take_iff.mp (hsub'.subset ha)
            exact Or.inl ((hpiff j hjn).mp (by omega))
          · rw [profitSum_cons, hsum', if_pos hneg, hrec,
              max_eq_left (le_of_lt hbr)]
            unfold includeProfit
            rfl
          · intro t ht
            rcases List.mem_cons.mp ht with h | h
            · exact ⟨i.toNat, hiN, h.symm, hbr⟩
            · exact hsel' t h
        · -- exclude wins (or ties): move to `i - 1`
          obtain ⟨picks', hrun', hsub', hcomp', hsum', hsel'⟩ :=
            IH (i - 1 + 1).toNat (by omega) (i - 1) rfl (by omega) (by omega)
          refine ⟨picks', ?_, ?_, hcomp', ?_, hsel'⟩
          · intro fuel acc hfuel
            cases fuel with
            | zero => omega
            | succ f =>
              simp only [backtrackGo]
              rw [if_neg (by omega), if_neg hbr, hrun' f acc (by omega)]
          · refine hsub'.trans (take_sublist_take (by omega))
          · rw [hsum', if_pos hneg, hrec, max_eq_right (not_lt.mp hbr)]
            unfold excludeProfit
            by_cases hone : 1 ≤ i
            · have h2 : (0 : Int) ≤ i - 1 := by omega
              have h3 : 0 < i.toNat := by omega
              have h1 : (i - 1).toNat = i.toNat - 1 := by omega
              rw [if_pos h2, if_pos h3, h1]
            · have h2 : ¬ (0 : Int) ≤ i - 1 := by omega
              have h3 : ¬ 0 < i.toNat := by omega
              rw [if_neg h2, if_neg h3]
  intro i hge hlt
  exact main (i + 1).toNat i rfl hge hlt

/-! ### Assembly: the full scheduler on valid input -/

theorem wis_eq_of_backtrack (tasks : List Task) (hne : tasks.isEmpty = false)
    (sel : List Task)
    (h : backtrackGo (sortByEnd tasks) (computeP (sortByEnd tasks))
        (dpChoose (sortByEnd tasks) (computeP (sortByEnd tasks))).1
        (sortByEnd tasks).length (((sortByEnd tasks).length : Int) - 1) [] = some sel) :
    weighted_interval_scheduling tasks = some (sel.reverse,
      (dpChoose (sortByEnd tasks) (computeP (sortByEnd tasks))).1.getD
        ((sortByEnd tasks).length - 1) 0) := by
  unfold weighted_interval_scheduling
  rw [hne]
  simp only [Bool.false_eq_true, if_false]
  rw [h]

/-- Master description of `weighted_interval_scheduling` on valid input:
it succeeds with a selection that is a sub-multiset of the input, pairwise
non-conflicting, sorted by end time, summing to the returned total, which is
the brute-force optimum; and each selected task sits at a sorted index where
the include profit strictly beats the exclude profit (hence has positive
profit). -/
theorem wis_spec (tasks : List Task) (hv : ValidTasks tasks) :
    ∃ sel tot, weighted_interval_scheduling tasks = some (sel, tot) ∧
      sel.Subperm tasks ∧
      PairwiseCompat sel ∧
      profitSum sel = tot ∧
      tot = bestProfit tasks ∧
      sel.Pairwise (fun a b => a.end_time ≤ b.end_time) ∧
      (∀ t ∈ sel, ∃ j : Nat, j < (sortByEnd tasks).length ∧
        (sortByEnd tasks).getD j default = t ∧
        excludeProfit (dpChoose (sortByEnd tasks) (computeP (sortByEnd tasks))).1 j <
          includeProfit (sortByEnd tasks) (computeP (sortByEnd tasks))
            (dpChoose (sortByEnd tasks) (computeP (sortByEnd tasks))).1 j) ∧
      (∀ t ∈ sel, 0 < t.profit) := by
  cases tasks with
  | nil =>
    refine ⟨[], 0, rfl, List.nil_subperm, List.Pairwise.nil, rfl, bestProfit_nil.symm,
      List.Pairwise.nil, by simp, by simp⟩
  | cons hd tl =>
    have hne : (hd :: tl).isEmpty = false := rfl
    have hperm := sortByEnd_perm (hd :: tl)
    have hlen : (sortByEnd (hd :: tl)).length = tl.length + 1 := by
      rw [hperm.length_eq]
      rfl
    have HS := sortByEnd_sorted (hd :: tl)
    have HV : ∀ t ∈ sortByEnd (hd :: tl), t.start_time < t.end_time :=
      fun t ht => hv t (hperm.subset ht)
    obtain ⟨picks, hrun, hsub, hcomp, hsum, hsel⟩ :=
      backtrack_run (sortByEnd (hd :: tl)) HS HV
        (((sortByEnd (hd :: tl)).length : Int) - 1) (by omega) (by omega)
    have hend := hrun (sortByEnd (hd :: tl)).length [] (by omega)
    rw [List.nil_append] at hend
    have heq := wis_eq_of_backtrack (hd :: tl) hne picks hend
    have hsubl : picks.reverse.Sublist (sortByEnd (hd :: tl)) := by
      have h3 : (((sortByEnd (hd :: tl)).length : Int) - 1 + 1).toNat =
          (sortByEnd (hd :: tl)).length := by omega
      have h2 := hsub
      rw [h3, List.take_length] at h2
      exact h2
    have hpos : ∀ t ∈ picks, 0 < t.profit := by
      intro t ht
      obtain ⟨j, hjn, hjt, hb⟩ := hsel t ht
      obtain ⟨hpge2, hplt2, _⟩ := p_char (sortByEnd (hd :: tl)) HS HV j hjn
      unfold includeProfit at hb
      rw [hjt] at hb
      have hX : (if 0 ≤ (computeP (sortByEnd (hd :: tl))).getD j 0 then
          (dpChoose (sortByEnd (hd :: tl)) (computeP (sortByEnd (hd :: tl)))).1.getD
            ((computeP (sortByEnd (hd :: tl))).getD j 0).toNat 0 else 0) ≤
          excludeProfit (dpChoose (sortByEnd (hd :: tl))
            (computeP (sortByEnd (hd :: tl)))).1 j := by
        by_cases hp : 0 ≤ (computeP (sortByEnd (hd :: tl))).getD j 0
        · rw [if_pos hp]
          unfold excludeProfit
          rw [if_pos (by omega : 0 < j)]
          exact dp_mono (sortByEnd (hd :: tl)) HS HV _ (j - 1) (by omega) (by omega)
        · rw [if_neg hp]
          unfold excludeProfit
          by_cases hj0 : 0 < j
          · rw [if_pos hj0]
            exact dp_nonneg (sortByEnd (hd :: tl)) HS HV (j - 1) (by omega)
          · rw [if_neg hj0]
      omega
    refine ⟨picks.reverse, _, heq, hsubl.subperm.trans hperm.subperm, hcomp, ?_, ?_,
      List.Pairwise.sublist hsubl HS, ?_, ?_⟩
    · rw [profitSum_reverse, hsum, if_pos (by omega : (0 : Int) ≤
        ((sortByEnd (hd :: tl)).length : Int) - 1)]
      have h4 : ((((sortByEnd (hd :: tl)).length : Int)) - 1).toNat =
          (sortByEnd (hd :: tl)).length - 1 := by omega
      rw [h4]
    · rw [dp_eq_bestProfit (sortByEnd (hd :: tl)) HS HV
        ((sortByEnd (hd :: tl)).length - 1) (by omega)]
      have h5 : (sortByEnd (hd :: tl)).length - 1 + 1 = (sortByEnd (hd :: tl)).length := by
        omega
      rw [h5, List.take_length]
      exact bestProfit_perm hperm
    · intro t ht
      exact hsel t (List.mem_reverse.mp ht)
    · intro t ht
      exact hpos t (List.mem_reverse.mp ht)

/-! ### Concrete tasks used in witnesses and counterexamples -/

/-- Overlap example of spec section 8: `A(0,10,profit=5)`. -/
def tA : Task := ⟨1, "A", 0, 10, 5⟩

/-- Overlap example of spec section 8: `B(5,15,profit=6)`. -/
def tB : Task := ⟨2, "B", 5, 15, 6⟩

/-- End-time tie pair: `(0,5,3)`. -/
def tC : Task := ⟨1, "A", 0, 5, 3⟩

/-- End-time tie pair: `(1,5,3)` — same end time and profit as `tC`. -/
def tD : Task := ⟨2, "B", 1, 5, 3⟩

/-- Back-to-back example of spec section 8: `A(0,5,profit=3)`. -/
def tG : Task := ⟨1, "A", 0, 5, 3⟩

/-- Back-to-back example of spec section 8: `B(5,10,profit=4)`. -/
def tH : Task := ⟨2, "B", 5, 10, 4⟩

/-- Skipped-index example: `(0,1,1)`. -/
def t0 : Task := ⟨0, "T0", 0, 1, 1⟩

/-- Skipped-index example: `(1,2,5)` — chosen by the DP but skipped over. -/
def t1 : Task := ⟨1, "T1", 1, 2, 5⟩

/-- Skipped-index example: `(0,3,10)` — its predecessor jump skips index 1. -/
def t2 : Task := ⟨2, "T2", 0, 3, 10⟩

/-- A task with negative profit. -/
def tN : Task := ⟨1, "N", 0, 5, -3⟩

/-- A task sharing the id of `tN`, overlapping it. -/
def tM : Task := ⟨1, "M", 2, 7, 4⟩

/-- Extracting components from two hypotheses about the same run. -/
theorem wis_unique {tasks : List Task} {sel sel2 : List Task} {tot tot2 : Int}
    (h : weighted_interval_scheduling tasks = some (sel, tot))
    (h2 : weighted_interval_scheduling tasks = some (sel2, tot2)) :
    sel = sel2 ∧ tot = tot2 := by
  rw [h] at h2
  have h3 := Option.some.inj h2
  exact ⟨congrArg Prod.fst h3, congrArg Prod.snd h3⟩

/-! ### The claims -/

/-- C1: for every finite list of tasks, each with `end_time > start_time`, the
total profit returned by `weighted_interval_scheduling` equals the maximum,
over all sub-multisets of the input that are pairwise non-conflicting under
the closed-open rule, of the sum of the profits. -/
theorem C1_total_profit_optimal (tasks : List Task) (hv : ValidTasks tasks)
    (sel : List Task) (tot : Int)
    (h : weighted_interval_scheduling tasks = some (sel, tot)) :
    tot = bestProfit tasks := by
  obtain ⟨sel2, tot2, heq, _, _, _, hbest, _, _, _⟩ := wis_spec tasks hv
  obtain ⟨_, htot⟩ := wis_unique h heq
  rw [htot, hbest]

unseal List.merge List.mergeSort in
theorem C1_witness : ValidTasks [tA, tB] ∧ (6 : Int) = bestProfit [tA, tB] :=
  ⟨by decide, C1_total_profit_optimal [tA, tB] (by decide) [tB] 6 (by decide)⟩

/-- C2: the selected list is a sub-multiset of the input and is pairwise
non-conflicting: for each pair either the first ends no later than the second
starts or vice versa (exact back-to-back adjacency allowed). -/
theorem C2_selected_subset_compat (tasks : List Task) (hv : ValidTasks tasks)
    (sel : List Task) (tot : Int)
    (h : weighted_interval_scheduling tasks = some (sel, tot)) :
    sel.Subperm tasks ∧
      sel.Pairwise (fun a b => a.end_time ≤ b.start_time ∨ b.end_time ≤ a.start_time) := by
  obtain ⟨sel2, tot2, heq, hsubp, hcompat, _, _, _, _, _⟩ := wis_spec tasks hv
  obtain ⟨hsel, _⟩ := wis_unique h heq
  subst hsel
  exact ⟨hsubp, hcompat⟩

unseal List.merge List.mergeSort in
theorem C2_witness : [tB].Subperm [tA, tB] ∧
    [tB].Pairwise (fun a b => a.end_time ≤ b.start_time ∨ b.end_time ≤ a.start_time) :=
  C2_selected_subset_compat [tA, tB] (by decide) [tB] 6 (by decide)

/-- C3: the returned total profit equals the sum of the profit fields of the
returned selected tasks. -/
theorem C3_total_eq_sum (tasks : List Task) (hv : ValidTasks tasks)
    (sel : List Task) (tot : Int)
    (h : weighted_interval_scheduling tasks = some (sel, tot)) :
    tot = profitSum sel := by
  obtain ⟨sel2, tot2, heq, _, _, hsum, _, _, _, _⟩ := wis_spec tasks hv
  obtain ⟨hsel, htot⟩ := wis_unique h heq
  rw [htot, hsel, hsum]

unseal List.merge List.mergeSort in
theorem C3_witness : ValidTasks [tG, tH] ∧ (7 : Int) = profitSum [tG, tH] :=
  ⟨by decide, C3_total_eq_sum [tG, tH] (by decide) [tG, tH] 7 (by decide)⟩

/-- C4: on every finite input whose tasks all satisfy
`end_time > start_time` — including empty input, negative profits and
duplicate ids — the backtracking loop terminates and the function returns a
result (no fuel exhaustion, modeling no nontermination or error). -/
theorem C4_terminates (tasks : List Task) (hv : ValidTasks tasks) :
    (weighted_interval_scheduling tasks).isSome = true := by
  obtain ⟨sel, tot, heq, _⟩ := wis_spec tasks hv
  rw [heq]
  rfl

unseal List.merge List.mergeSort in
theorem C4_witness : ValidTasks [tN, tM, tN] ∧
    (weighted_interval_scheduling [tN, tM, tN]).isSome = true :=
  ⟨by decide, C4_terminates [tN, tM, tN] (by decide)⟩

unseal List.merge List.mergeSort in
/-- C5 counterexample: `[tC, tD]` and its permutation `[tD, tC]` (two tasks
with equal end times and profits) produce different selected lists, so the
claim that a permuted input yields the same selected subset is false. -/
theorem C5_counterexample :
    [tC, tD].Perm [tD, tC] ∧
    weighted_interval_scheduling [tC, tD] = some ([tC], 3) ∧
    weighted_interval_scheduling [tD, tC] = some ([tD], 3) ∧
    tC ≠ tD :=
  ⟨List.Perm.swap tD tC [], by decide, by decide, by decide⟩

/-- C5 amended: permuting the input preserves the total profit and the profit
sum of the selected list (which equals it), but not necessarily the selected
list itself (it can differ when tasks tie, as the counterexample shows). -/
theorem C5_amended_perm_profit (tasks tasks2 : List Task) (hv : ValidTasks tasks)
    (hperm : tasks.Perm tasks2) (sel tot sel2 tot2)
    (h : weighted_interval_scheduling tasks = some (sel, tot))
    (h2 : weighted_interval_scheduling tasks2 = some (sel2, tot2)) :
    tot = tot2 ∧ profitSum sel = profitSum sel2 := by
  have hv2 : ValidTasks tasks2 := fun t ht => hv t (hperm.symm.subset ht)
  obtain ⟨sela, tota, heqa, _, _, hsuma, hbesta, _, _, _⟩ := wis_spec tasks hv
  obtain ⟨selb, totb, heqb, _, _, hsumb, hbestb, _, _, _⟩ := wis_spec tasks2 hv2
  obtain ⟨hsel1, htot1⟩ := wis_unique h heqa
  obtain ⟨hsel2, htot2⟩ := wis_unique h2 heqb
  have hb := bestProfit_perm hperm
  constructor
  · rw [htot1, htot2, hbesta, hbestb, hb]
  · rw [hsel1, hsel2, hsuma, hsumb, hbesta, hbestb, hb]

unseal List.merge List.mergeSort in
theorem C5_amended_witness : (3 : Int) = 3 ∧ profitSum [tC] = profitSum [tD] :=
  C5_amended_perm_profit [tC, tD] [tD, tC] (by decide) (List.Perm.swap tD tC [])
    [tC] 3 [tD] 3 (by decide) (by decide)

/-- C6: for valid input, permuting the input list does not change the
returned total profit. -/
theorem C6_total_perm_invariant (tasks tasks2 : List Task) (hv : ValidTasks tasks)
    (hperm : tasks.Perm tasks2) (sel tot sel2 tot2)
    (h : weighted_interval_scheduling tasks = some (sel, tot))
    (h2 : weighted_interval_scheduling tasks2 = some (sel2, tot2)) :
    tot = tot2 := by
  have hv2 : ValidTasks tasks2 := fun t ht => hv t (hperm.symm.subset ht)
  obtain ⟨sela, tota, heqa, _, _, _, hbesta, _, _, _⟩ := wis_spec tasks hv
  obtain ⟨selb, totb, heqb, _, _, _, hbestb, _, _, _⟩ := wis_spec tasks2 hv2
  obtain ⟨_, htot1⟩ := wis_unique h heqa
  obtain ⟨_, htot2⟩ := wis_unique h2 heqb
  rw [htot1, htot2, hbesta, hbestb, bestProfit_perm hperm]

unseal List.merge List.mergeSort in
theorem C6_witness : ValidTasks [tA, tB] ∧ (6 : Int) = 6 :=
  ⟨by decide, C6_total_perm_invariant [tA, tB] [tB, tA] (by decide)
    (List.Perm.swap tB tA []) [tB] 6 [tB] 6 (by decide) (by decide)⟩

/-- C7: the selected list is returned in ascending order of end time. -/
theorem C7_selected_sorted (tasks : List Task) (hv : ValidTasks tasks)
    (sel : List Task) (tot : Int)
    (h : weighted_interval_scheduling tasks = some (sel, tot)) :
    sel.Pairwise (fun a b => a.end_time ≤ b.end_time) := by
  obtain ⟨sel2, tot2, heq, _, _, _, _, hsort, _, _⟩ := wis_spec tasks hv
  obtain ⟨hsel, _⟩ := wis_unique h heq
  subst hsel
  exact hsort

unseal List.merge List.mergeSort in
theorem C7_witness : [tG, tH].Pairwise (fun a b => a.end_time ≤ b.end_time) :=
  C7_selected_sorted [tG, tH] (by decide) [tG, tH] 7 (by decide)

/-- C8: for each index `i` into the end-time-sorted list, `p[i]` lies in
`[-1, i)` and an index `j < i` satisfies `j <= p[i]` exactly when the `j`-th
sorted task ends no later than the `i`-th sorted task starts; hence `p[i]` is
the largest such `j` (`-1` when none exists), and on equal end times the
rightmost qualifying index. -/
theorem C8_predecessor_spec (tasks : List Task) (hv : ValidTasks tasks)
    (i : Nat) (hi : i < (sortByEnd tasks).length) :
    -1 ≤ (computeP (sortByEnd tasks)).getD i 0 ∧
    (computeP (sortByEnd tasks)).getD i 0 < (i : Int) ∧
    (∀ j : Nat, j < i →
      ((j : Int) ≤ (computeP (sortByEnd tasks)).getD i 0 ↔
        ((sortByEnd tasks).getD j default).end_time ≤
          ((sortByEnd tasks).getD i default).start_time)) := by
  have HS := sortByEnd_sorted tasks
  have HV : ∀ t ∈ sortByEnd tasks, t.start_time < t.end_time :=
    fun t ht => hv t ((sortByEnd_perm tasks).subset ht)
  obtain ⟨h1, h2, h3⟩ := p_char (sortByEnd tasks) HS HV i hi
  exact ⟨h1, h2, fun j hj => h3 j (by omega)⟩

unseal List.merge List.mergeSort in
theorem C8_witness :
    -1 ≤ (computeP (sortByEnd [tG, tH])).getD 1 0 ∧
    (computeP (sortByEnd [tG, tH])).getD 1 0 < (1 : Int) ∧
    (∀ j : Nat, j < 1 →
      ((j : Int) ≤ (computeP (sortByEnd [tG, tH])).getD 1 0 ↔
        ((sortByEnd [tG, tH]).getD j default).end_time ≤
          ((sortByEnd [tG, tH]).getD 1 default).start_time)) :=
  C8_predecessor_spec [tG, tH] (by decide) 1 (by decide)

unseal List.merge List.mergeSort in
/-- C9 counterexample: on `[t0, t1, t2]`, index 1 of the sorted list holds
`t1`, its include profit strictly beats its exclude profit and `choose[1]` is
true, yet `t1` is not in the selected list — the backtrack jump from index 2
to `p[2] = -1` skips it.  So "appended during backtracking exactly when
include(i) > exclude(i)" fails. -/
theorem C9_counterexample :
    (sortByEnd [t0, t1, t2]).getD 1 default = t1 ∧
    excludeProfit (dpChoose (sortByEnd [t0, t1, t2])
      (computeP (sortByEnd [t0, t1, t2]))).1 1 <
      includeProfit (sortByEnd [t0, t1, t2]) (computeP (sortByEnd [t0, t1, t2]))
        (dpChoose (sortByEnd [t0, t1, t2]) (computeP (sortByEnd [t0, t1, t2]))).1 1 ∧
    (dpChoose (sortByEnd [t0, t1, t2]) (computeP (sortByEnd [t0, t1, t2]))).2.getD
      1 false = true ∧
    weighted_interval_scheduling [t0, t1, t2] = some ([t2], 10) ∧
    t1 ∉ [t2] := by
  refine ⟨by decide, by decide, by decide, by decide, by decide⟩

/-- C9 amended: `choose[i]` is true exactly when `include(i) > exclude(i)`
(so on an exact tie the task is excluded), and every task appended during
backtracking sits at a sorted index where `include(i) > exclude(i)`; but an
index with `include(i) > exclude(i)` may still be skipped by a predecessor
jump and never appended. -/
theorem C9_amended_choose_append (tasks : List Task) (hv : ValidTasks tasks) :
    (∀ i, i < (sortByEnd tasks).length →
      ((dpChoose (sortByEnd tasks) (computeP (sortByEnd tasks))).2.getD i false = true ↔
        excludeProfit (dpChoose (sortByEnd tasks) (computeP (sortByEnd tasks))).1 i <
          includeProfit (sortByEnd tasks) (computeP (sortByEnd tasks))
            (dpChoose (sortByEnd tasks) (computeP (sortByEnd tasks))).1 i)) ∧
    (∀ sel tot, weighted_interval_scheduling tasks = some (sel, tot) →
      ∀ t ∈ sel, ∃ j, j < (sortByEnd tasks).length ∧
        (sortByEnd tasks).getD j default = t ∧
        excludeProfit (dpChoose (sortByEnd tasks) (computeP (sortByEnd tasks))).1 j <
          includeProfit (sortByEnd tasks) (computeP (sortByEnd tasks))
            (dpChoose (sortByEnd tasks) (computeP (sortByEnd tasks))).1 j) := by
  have HS := sortByEnd_sorted tasks
  have HV : ∀ t ∈ sortByEnd tasks, t.start_time < t.end_time :=
    fun t ht => hv t ((sortByEnd_perm tasks).subset ht)
  constructor
  · intro i hi
    rw [(dp_recurrence (sortByEnd tasks) HS HV i hi).2]
    exact decide_eq_true_iff
  · intro sel tot h t ht
    obtain ⟨sel2, tot2, heq, _, _, _, _, _, hbranch, _⟩ := wis_spec tasks hv
    obtain ⟨hsel, _⟩ := wis_unique h heq
    subst hsel
    exact hbranch t ht

unseal List.merge List.mergeSort in
theorem C9_amended_witness :
    ((dpChoose (sortByEnd [t0, t1, t2]) (computeP (sortByEnd [t0, t1, t2]))).2.getD
        1 false = true ↔
      excludeProfit (dpChoose (sortByEnd [t0, t1, t2])
        (computeP (sortByEnd [t0, t1, t2]))).1 1 <
        includeProfit (sortByEnd [t0, t1, t2]) (computeP (sortByEnd [t0, t1, t2]))
          (dpChoose (sortByEnd [t0, t1, t2]) (computeP (sortByEnd [t0, t1, t2]))).1 1) ∧
    (∀ t ∈ [t2], ∃ j, j < (sortByEnd [t0, t1, t2]).length ∧
      (sortByEnd [t0, t1, t2]).getD j default = t ∧
      excludeProfit (dpChoose (sortByEnd [t0, t1, t2])
        (computeP (sortByEnd [t0, t1, t2]))).1 j <
        includeProfit (sortByEnd [t0, t1, t2]) (computeP (sortByEnd [t0, t1, t2]))
          (dpChoose (sortByEnd [t0, t1, t2]) (computeP (sortByEnd [t0, t1, t2]))).1 j) :=
  ⟨(C9_amended_choose_append [t0, t1, t2] (by decide)).1 1 (by decide),
    (C9_amended_choose_append [t0, t1, t2] (by decide)).2 [t2] 10 (by decide)⟩

/-- C10: every selected task has strictly positive profit, and the returned
total profit is never negative — even when every input profit is
non-positive. -/
theorem C10_positive_selected (tasks : List Task) (hv : ValidTasks tasks)
    (sel : List Task) (tot : Int)
    (h : weighted_interval_scheduling tasks = some (sel, tot)) :
    (∀ t ∈ sel, 0 < t.profit) ∧ 0 ≤ tot := by
  obtain ⟨sel2, tot2, heq, _, _, _, hbest, _, _, hpos⟩ := wis_spec tasks hv
  obtain ⟨hsel, htot⟩ := wis_unique h heq
  subst hsel
  refine ⟨hpos, ?_⟩
  rw [htot, hbest]
  exact bestProfit_nonneg tasks

unseal List.merge List.mergeSort in
theorem C10_witness : (∀ t ∈ ([] : List Task), 0 < t.profit) ∧ (0 : Int) ≤ 0 :=
  C10_positive_selected [tN] (by decide) [] 0 (by decide)

end App
